import Mathlib

/-!
Verification development for the news-tracker pipeline (scripts/tracker.py).

The Python source is shallowly embedded: each function of the script is
translated to an executable Lean definition over `List Char` / `String`,
machine integers become `Int`/`Nat`, fallible steps become `Option`, and
external collaborators (the feed fetcher, compiled regular expressions in
the configuration, the enrichment libraries) are modelled as function-valued
parameters.  Dates are modelled by their proleptic-Gregorian ordinal
(`toOrdinal`, the number scheme of Python's `date.toordinal`), so that
`date.today() - timedelta(days=n)` becomes ordinal subtraction.
-/

namespace Tracker

/-! ## Character helpers -/

/-- ASCII whitespace class of the regex `\s` (Python also accepts some
Unicode spaces; feed text here is ASCII-spaced). -/
def isPySpace (c : Char) : Bool :=
  c = ' ' || c = '\t' || c = '\n' || c = '\r' || c = '\x0b' || c = '\x0c'

/-- Word character for the regex boundary `\b` (`[A-Za-z0-9_]` plus the
alphanumeric letters Lean knows about). -/
def isWordChar (c : Char) : Bool := c.isAlphanum || c = '_'

/-! ## `html.unescape` (subset model)

Model of the standard-library entity decoder restricted to the named
entities that can occur in the tracked feeds.  Like the original it is a
single left-to-right pass: replaced text is never rescanned. -/

/-- Lookahead after a `&`: the replacement character and how many source
characters the entity body consumes. -/
def entityLookahead (cs : List Char) : Option (Char × Nat) :=
  if List.isPrefixOf "amp;".data cs then some ('&', 4)
  else if List.isPrefixOf "lt;".data cs then some ('<', 3)
  else if List.isPrefixOf "gt;".data cs then some ('>', 3)
  else if List.isPrefixOf "quot;".data cs then some ('"', 5)
  else if List.isPrefixOf "apos;".data cs then some (Char.ofNat 39, 5)
  else if List.isPrefixOf "#39;".data cs then some (Char.ofNat 39, 4)
  else if List.isPrefixOf "nbsp;".data cs then some (Char.ofNat 160, 5)
  else if List.isPrefixOf "times;".data cs then some ('×', 6)
  else none

/-- Single pass of the decoder; the `Nat` argument counts source characters
still to be skipped because they were consumed by a entity replacement. -/
def unescGo : Nat → List Char → List Char
  | 0, [] => []
  | 0, c :: cs =>
      if c = '&' then
        match entityLookahead cs with
        | some (r, len) => r :: unescGo len cs
        | none => '&' :: unescGo 0 cs
      else c :: unescGo 0 cs
  | _ + 1, [] => []
  | k + 1, _ :: cs => unescGo k cs

/-- `html.unescape` (subset model, see `entityLookahead`). -/
def pyUnescape (s : String) : String := ⟨unescGo 0 s.data⟩

/-! ## Tag stripping: `re.sub(r"<[^>]+>", " ", s)` -/

/-- One-pass tag stripper.  `none` is ordinary scanning; `some buf` means we
are inside a potential tag whose characters (starting with `<`) are held in
`buf` in reverse.  A `>` closes the tag only if at least one character
followed the `<` (the regex body is `[^>]+`); a buffer that never closes is
emitted verbatim, matching the fact that the regex then has no match. -/
def stripTagsGo : Option (List Char) → List Char → List Char
  | none, [] => []
  | none, c :: cs => if c = '<' then stripTagsGo (some ['<']) cs else c :: stripTagsGo none cs
  | some buf, [] => buf.reverse
  | some buf, c :: cs =>
      if c = '>' then
        if 2 ≤ buf.length then ' ' :: stripTagsGo none cs
        else buf.reverse ++ ('>' :: stripTagsGo none cs)
      else stripTagsGo (some (c :: buf)) cs

def stripTags (s : String) : String := ⟨stripTagsGo none s.data⟩

/-! ## `'×' -> 'x'`, whitespace collapse, strip -/

/-- `s.replace("×", "x")` — the pattern is a single character, so this is a
character map. -/
def replaceTimesSign (l : List Char) : List Char :=
  l.map (fun c => if c = '×' then 'x' else c)

/-- `re.sub(r"\s+", " ", s)`: every maximal whitespace run becomes one
space.  The flag records whether we are inside a run already emitted. -/
def collapseGo : Bool → List Char → List Char
  | _, [] => []
  | inRun, c :: cs =>
      if isPySpace c then
        if inRun then collapseGo true cs else ' ' :: collapseGo true cs
      else c :: collapseGo false cs

/-- `str.strip()` on the whitespace class `isPySpace`. -/
def pyStripChars (l : List Char) : List Char :=
  ((l.dropWhile isPySpace).reverse.dropWhile isPySpace).reverse

def pyStrip (s : String) : String := ⟨pyStripChars s.data⟩

/-- `normalize_text` from scripts/tracker.py.  The Python body is wrapped in
`try/except` returning the input on failure; the embedding is a total
function, so it cannot raise by construction and always takes the success
path: decode entities, strip tag-like substrings, normalize `×` to `x`,
collapse whitespace, strip. -/
def normalize_text (s : String) : String :=
  let s1 := pyUnescape s
  let s2 := stripTags s1
  let s3 : String := ⟨replaceTimesSign s2.data⟩
  ⟨pyStripChars (collapseGo false s3.data)⟩

/-! ## Dates (`datetime.date`) -/

def isLeapYear (y : Nat) : Bool := (y % 4 = 0 && y % 100 ≠ 0) || y % 400 = 0

def daysInMonth (y m : Nat) : Nat :=
  if m = 1 then 31 else if m = 2 then (if isLeapYear y then 29 else 28)
  else if m = 3 then 31 else if m = 4 then 30 else if m = 5 then 31
  else if m = 6 then 30 else if m = 7 then 31 else if m = 8 then 31
  else if m = 9 then 30 else if m = 10 then 31 else if m = 11 then 30 else 31

def daysBeforeMonth (y m : Nat) : Nat :=
  (List.range (m - 1)).foldl (fun acc i => acc + daysInMonth y (i + 1)) 0

/-- `date(y, m, d).toordinal()`: day number in the proleptic Gregorian
calendar with `0001-01-01 = 1`. -/
def toOrdinal (y m d : Nat) : Nat :=
  365 * (y - 1) + (y - 1) / 4 - (y - 1) / 100 + (y - 1) / 400 + daysBeforeMonth y m + d

def natOfDigits (l : List Char) : Nat :=
  l.foldl (fun n c => n * 10 + (c.toNat - 48)) 0

/-- Split a character list at `-`. -/
def splitDashGo : List Char → List Char → List (List Char)
  | cur, [] => [cur.reverse]
  | cur, c :: cs => if c = '-' then cur.reverse :: splitDashGo [] cs else splitDashGo (c :: cur) cs

def allDigits (l : List Char) : Bool := !l.isEmpty && l.all Char.isDigit

/-- `date.fromisoformat` on the `YYYY-MM-DD` layout the pipeline writes
(`date.isoformat()`), returning the ordinal of the parsed day, or `none`
when the string is not a valid date of that layout. -/
def parseIsoDate (s : String) : Option Nat :=
  match splitDashGo [] s.data with
  | [ys, ms, ds] =>
      if ys.length = 4 && ms.length = 2 && ds.length = 2
          && allDigits ys && allDigits ms && allDigits ds then
        let y := natOfDigits ys
        let m := natOfDigits ms
        let d := natOfDigits ds
        if 1 ≤ y && 1 ≤ m && m ≤ 12 && 1 ≤ d && d ≤ daysInMonth y m then
          some (toOrdinal y m d)
        else none
      else none
  | _ => none

/-- `within_window` from scripts/tracker.py: unparsable dates pass (fail
open); otherwise keep dates not older than `since_days` days before today
(`today` is the current day's ordinal). -/
def within_window (today : Nat) (dateStr : String) (sinceDays : Int) : Bool :=
  match parseIsoDate dateStr with
  | none => true
  | some d => decide ((d : Int) ≥ (today : Int) - sinceDays)

/-! ## Bonus-score patterns

Direct matchers for the three hard-coded regular expressions

  RES_RE   = `(?i)\b2560\s*[x]\s*(1600|1440)\b`
  NITS_RE  = `(?i)\b(3[0-9]{2}|400)\s*nits?\b`
  MATTE_RE = `(?i)\b(anti-?glare|matte)\b`

Each `match…At` decides a match anchored at the head of the list; the
generic `searchWithPrev` tries every position (regex `search`), carrying
the previous character for the leading `\b` check (every alternative of
every pattern begins with a word character, so the leading boundary holds
exactly when the previous character is absent or not a word character). -/

/-- Case-insensitive literal match; returns the rest of the input.  The
pattern is given in lowercase. -/
def matchLit : List Char → List Char → Option (List Char)
  | [], rest => some rest
  | _ :: _, [] => none
  | p :: ps, c :: cs => if c.toLower = p then matchLit ps cs else none

/-- Trailing `\b`: end of input or a non-word character. -/
def boundaryAfter : List Char → Bool
  | [] => true
  | c :: _ => !isWordChar c

/-- `\s*`. -/
def wsSkip (l : List Char) : List Char := l.dropWhile isPySpace

def matchResAt (l : List Char) : Bool :=
  match matchLit "2560".data l with
  | none => false
  | some r1 =>
      match wsSkip r1 with
      | [] => false
      | c :: cs =>
          if c.toLower = 'x' then
            let r4 := wsSkip cs
            match matchLit "1600".data r4 with
            | some r5 => boundaryAfter r5
            | none =>
                match matchLit "1440".data r4 with
                | some r5 => boundaryAfter r5
                | none => false
          else false

def matchNitsAt (l : List Char) : Bool :=
  let num : Option (List Char) :=
    match l with
    | '3' :: a :: b :: rest => if a.isDigit && b.isDigit then some rest else none
    | _ => none
  let num : Option (List Char) :=
    match num with
    | some r => some r
    | none => matchLit "400".data l
  match num with
  | none => false
  | some r1 =>
      match matchLit "nit".data (wsSkip r1) with
      | none => false
      | some r3 =>
          match r3 with
          | c :: cs => if c.toLower = 's' then boundaryAfter cs else boundaryAfter r3
          | [] => true

def matchMatteAt (l : List Char) : Bool :=
  match matchLit "anti".data l with
  | some r1 =>
      let r2 := match r1 with
        | '-' :: cs => cs
        | _ => r1
      (match matchLit "glare".data r2 with
       | some r3 => boundaryAfter r3
       | none => false)
  | none =>
      match matchLit "matte".data l with
      | some r3 => boundaryAfter r3
      | none => false

/-- Leading `\b` for a pattern starting with a word character. -/
def prevBoundary : Option Char → Bool
  | none => true
  | some p => !isWordChar p

def searchWithPrev (matchAt : List Char → Bool) : Option Char → List Char → Bool
  | _, [] => false
  | prev, c :: cs => (prevBoundary prev && matchAt (c :: cs)) || searchWithPrev matchAt (some c) cs

def resSearch (s : String) : Bool := searchWithPrev matchResAt none s.data
def nitsSearch (s : String) : Bool := searchWithPrev matchNitsAt none s.data
def matteSearch (s : String) : Bool := searchWithPrev matchMatteAt none s.data

/-! ## `hostname` (model of `urllib.parse.urlparse(url).hostname or ""`) -/

/-- Rest of the input after the first `://`, if any (the script's feeds all
carry absolute URLs; without a netloc the Python helper yields `""`). -/
def afterSchemeSep : List Char → Option (List Char)
  | [] => none
  | ':' :: '/' :: '/' :: rest => some rest
  | _ :: cs => afterSchemeSep cs

/-- Part after the last `@`, or the whole input when there is none. -/
def afterLastAt (l : List Char) : List Char :=
  (l.reverse.takeWhile (fun c => c ≠ '@')).reverse

/-- Netloc up to the first delimiter, userinfo and port removed,
lowercased. -/
def hostOf (l : List Char) : List Char :=
  let netloc := l.takeWhile (fun c => c ≠ '/' && c ≠ '?' && c ≠ '#')
  ((afterLastAt netloc).takeWhile (fun c => c ≠ ':')).map Char.toLower

def hostname (url : String) : String :=
  match afterSchemeSep url.data with
  | some rest => ⟨hostOf rest⟩
  | none => ""

/-! ## Data model -/

structure Item where
  date : String
  score : Int
  title : String
  link : String
  host : String
  keywords : Option (List String) := none
  cluster_id : Int := -1
deriving Repr, DecidableEq

/-- Raw feed entry as the pipeline loop sees it: `title`/`link` may be
empty when absent; `summary` is the summary-or-first-content-block text
resolved during ingestion; `date` is the `to_date_yyyy_mm_dd` result. -/
structure RawEntry where
  title : String
  link : String
  summary : String
  date : String
deriving Repr, DecidableEq

/-- Configuration; compiled regular expressions are modelled as their
matching functions (`p.search(text)` is `p text`). -/
structure Config where
  include_patterns : List (String → Bool)
  exclude_patterns : List (String → Bool)
  sources : List String
  domain_blocklist : List String
  exclude_cjk : Bool
  window_days : Int

/-! ## Scoring and filtering -/

def HIGH_SOURCES : List String := ["blogs.windows.com", "news.lenovo.com"]

def MID_SOURCES : List String :=
  ["www.notebookcheck.net", "notebookcheck.net", "www.windowscentral.com",
   "windowscentral.com", "www.neowin.net", "neowin.net", "techreport.com",
   "slashdot.org", "laptopmedia.com"]

def score_for_host (h : String) : Int :=
  if h ∈ HIGH_SOURCES then 3 else if h ∈ MID_SOURCES then 2 else 1

def matches_any (patterns : List (String → Bool)) (text : String) : Bool :=
  patterns.any (fun p => p text)

/-- `CJK_RE = [一-鿿぀-ヿ가-힯]`. -/
def isCJK (c : Char) : Bool :=
  (0x4E00 ≤ c.toNat && c.toNat ≤ 0x9FFF)
  || (0x3040 ≤ c.toNat && c.toNat ≤ 0x30FF)
  || (0xAC00 ≤ c.toNat && c.toNat ≤ 0xD7AF)

def cjkSearch (s : String) : Bool := s.data.any isCJK

/-- `host == d or host.endswith("." + d)`. -/
def strEndsWith (s suffix2 : String) : Bool :=
  List.isPrefixOf suffix2.data.reverse s.data.reverse

/-- the local `blocked` of `run_pipeline`: blocklist match by equality or
domain suffix. -/
def blockedHost (blocklist : List String) (host : String) : Bool :=
  blocklist.any (fun d => host = d || strEndsWith host ("." ++ d))

/-- Filter engine of `run_pipeline` (lines 226–256): domain blocklist, CJK
exclusion, exclude patterns, include patterns, in this order, all
exclusionary. -/
def filter_accept (cfg : Config) (h text : String) : Bool :=
  if blockedHost cfg.domain_blocklist h then false
  else if cfg.exclude_cjk && cjkSearch text then false
  else if (!cfg.exclude_patterns.isEmpty) && matches_any cfg.exclude_patterns text then false
  else if (!cfg.include_patterns.isEmpty) && !matches_any cfg.include_patterns text then false
  else true

/-- `text = f"{title} {summary}".strip()` over the normalized fields. -/
def entryText (e : RawEntry) : String :=
  pyStrip (normalize_text e.title ++ " " ++ normalize_text e.summary)

/-- Body of the per-entry loop of `run_pipeline`: skip entries without
title or link, apply the filter engine and the relevance window, then
score (host tier plus bonus patterns). -/
def processEntry (cfg : Config) (sinceDays : Int) (today : Nat) (e : RawEntry) : Option Item :=
  let title := normalize_text e.title
  if title = "" || e.link = "" then none
  else
    let h := hostname e.link
    let text := entryText e
    if !filter_accept cfg h text then none
    else if !within_window today e.date sinceDays then none
    else
      let s := score_for_host h
        + (if resSearch text then 2 else 0)
        + (if nitsSearch text then 1 else 0)
        + (if matteSearch text then 1 else 0)
      some { date := e.date, score := s, title := title, link := e.link, host := h }

/-! ## Insertion-ordered dictionaries

Python's `dict` preserves insertion order and updates values in place;
association lists with `dictInsert` model exactly that. -/

def dictLookup {α : Type} (m : List (String × α)) (k : String) : Option α :=
  match m with
  | [] => none
  | (k2, v) :: rest => if k2 = k then some v else dictLookup rest k

def dictInsert {α : Type} (m : List (String × α)) (k : String) (v : α) : List (String × α) :=
  match m with
  | [] => [(k, v)]
  | (k2, v2) :: rest => if k2 = k then (k2, v) :: rest else (k2, v2) :: dictInsert rest k v

/-- Loop body of `unique_by_link`: keep the stored item unless the incoming
one has a strictly higher score (or the link is new). -/
def dedupStep (best : List (String × Item)) (it : Item) : List (String × Item) :=
  match dictLookup best it.link with
  | none => dictInsert best it.link it
  | some b => if b.score < it.score then dictInsert best it.link it else best

/-- `unique_by_link` from scripts/tracker.py. -/
def unique_by_link (items : List Item) : List Item :=
  (items.foldl dedupStep []).map Prod.snd

/-- Filtered, scored, deduplicated item collection of `run_pipeline`
(before the optional enrichment and the final report sort); the flattened
entry list stands for the per-source fetch loop. -/
def run_items (cfg : Config) (sinceDays : Int) (today : Nat) (entries : List RawEntry) : List Item :=
  unique_by_link (entries.filterMap (processEntry cfg sinceDays today))

/-! ## Stable sorting (model of Python's `list.sort`)

Python `list.sort(key=…, reverse=True)` is a stable sort under the
comparison "key of the left element is at least the key of the right one".
Any two stable sorts with the same total boolean comparison agree, so the
insertion sort below is observationally the same function. -/

def pyInsert {α : Type} (le : α → α → Bool) (x : α) : List α → List α
  | [] => [x]
  | y :: ys => if le x y then x :: y :: ys else y :: pyInsert le x ys

def pyStableSort {α : Type} (le : α → α → Bool) : List α → List α
  | [] => []
  | x :: xs => pyInsert le x (pyStableSort le xs)

/-- Code-point comparison of strings, the comparison Python applies to the
ISO date strings and titles inside sort keys. -/
def strLtList : List Char → List Char → Bool
  | [], [] => false
  | [], _ :: _ => true
  | _ :: _, [] => false
  | a :: xs, b :: ys => if a = b then strLtList xs ys else decide (a.toNat < b.toNat)

def strLtB (a b : String) : Bool := strLtList a.data b.data

def strLeB (a b : String) : Bool := strLtB a b || a = b

/-- `deduped.sort(key=lambda x: (x.score, x.date, x.title), reverse=True)`:
`a` may precede `b` exactly when `b`'s key is at most `a`'s
lexicographically. -/
def reportLe (a b : Item) : Bool :=
  decide (b.score < a.score)
  || (decide (b.score = a.score)
      && (strLtB b.date a.date || (decide (b.date = a.date) && strLeB b.title a.title)))

def sortItemsForReport (l : List Item) : List Item := pyStableSort reportLe l

/-! ## Enrichment (keywords and clustering, best effort) -/

/-- Enrichment loop of `run_pipeline` with the external models abstracted:
`kws` is the keyword extractor applied to the title, `cl` assigns a cluster
id to each list position.  Only `keywords` and `cluster_id` change. -/
def enrichAll (kws : String → List String) (cl : Nat → Int) : Nat → List Item → List Item
  | _, [] => []
  | i, it :: rest =>
      { it with keywords := some (kws it.title), cluster_id := cl i } :: enrichAll kws cl (i + 1) rest

/-- Tail of `run_pipeline` when the enrichment imports fail: the deduped
collection is sorted for the report unchanged. -/
def finalizeAbsent (deduped : List Item) : List Item := sortItemsForReport deduped

/-- Tail of `run_pipeline` when enrichment is available. -/
def finalizePresent (kws : String → List String) (cl : Nat → Int) (deduped : List Item) : List Item :=
  sortItemsForReport (enrichAll kws cl 0 deduped)

/-- The fields of an item that enrichment must not touch. -/
def itemProj (it : Item) : String × Int × String × String × String :=
  (it.date, it.score, it.title, it.link, it.host)

/-! ## Historical store (`write_json`) -/

/-- One record of the persisted `news.json` array. -/
structure NewsRecord where
  date : String
  score : Int
  title : String
  link : String
  host : String
  keywords : List String
  cluster_id : Int
deriving Repr, DecidableEq

/-- The `dict(...)` built per item in `write_json`; `keywords or []` maps a
missing (or empty) keyword list to `[]`, and `cluster_id` is an `int`
field, never `None`. -/
def itemToRecord (it : Item) : NewsRecord :=
  { date := it.date, score := it.score, title := it.title, link := it.link,
    host := it.host, keywords := it.keywords.getD [], cluster_id := it.cluster_id }

/-- One step of the dict comprehension `{it["link"]: it for it in old_data}`. -/
def indexStep (m : List (String × NewsRecord)) (r : NewsRecord) : List (String × NewsRecord) :=
  dictInsert m r.link r

/-- `seen_links = {it["link"]: it for it in old_data …}`. -/
def indexByLink (old : List NewsRecord) : List (String × NewsRecord) :=
  old.foldl indexStep []

/-- One step of the update loop `seen_links[it.link] = d`. -/
def storeStep (m : List (String × NewsRecord)) (it : Item) : List (String × NewsRecord) :=
  dictInsert m it.link (itemToRecord it)

/-- The update loop `seen_links[it.link] = d` over the new items. -/
def overlayNew (old : List NewsRecord) (items : List Item) : List (String × NewsRecord) :=
  items.foldl storeStep (indexByLink old)

/-- `recent_only` of `write_json` with `cutoff = today - 365`: unparsable
dates are retained (fail open), parsed dates must be within the retention
window, boundary inclusive. -/
def recent_only (today : Nat) (r : NewsRecord) : Bool :=
  match parseIsoDate r.date with
  | none => true
  | some d => decide ((d : Int) ≥ (today : Int) - 365)

/-- `new_data.sort(key=lambda x: x.get("date",""), reverse=True)`. -/
def sortStoreByDate (l : List NewsRecord) : List NewsRecord :=
  pyStableSort (fun a b => strLeB b.date a.date) l

/-- Pure core of `write_json`: index the historical store by link, overlay
the run's items by link (new wins), keep only records inside the retention
window, sort by date descending. -/
def mergeStore (old : List NewsRecord) (items : List Item) (today : Nat) : List NewsRecord :=
  sortStoreByDate (((overlayNew old items).map Prod.snd).filter (recent_only today))

/-! ## Manifest (`write_manifest`) -/

/-- `"4+" if score >= 4 else str(max(min(score, 3), 1))`. -/
def bucketKey (score : Int) : String :=
  if 4 ≤ score then "4+" else toString (max (min score 3) 1)

/-- `by[key] = by.get(key, 0) + 1`. -/
def tallyStep (tally : List (String × Nat)) (k : String) : List (String × Nat) :=
  dictInsert tally k ((dictLookup tally k).getD 0 + 1)

/-- The `count_by_score` dictionary of the manifest, seeded with the four
buckets. -/
def count_by_score (items : List Item) : List (String × Nat) :=
  items.foldl (fun tally it => tallyStep tally (bucketKey it.score)) [("1", 0), ("2", 0), ("3", 0), ("4+", 0)]

/-! ## Reference characterization of the dedup fold -/

/-- Effect of one item on the best-so-far choice for a fixed link `k`,
mirroring the strict comparison of `unique_by_link`. -/
def bestStep (k : String) (acc : Option Item) (it : Item) : Option Item :=
  if it.link = k then
    match acc with
    | none => some it
    | some b => if b.score < it.score then some it else some b
  else acc

/-- The item `unique_by_link` retains for link `k`: the first of the
highest-scoring items with that link. -/
def bestFor (l : List Item) (k : String) : Option Item :=
  l.foldl (bestStep k) none

/-- Invariant of the `best` dictionary of `unique_by_link`: keys are
distinct and every stored item carries its key as link. -/
def GoodMap (m : List (String × Item)) : Prop :=
  (m.map Prod.fst).Nodup ∧ ∀ p ∈ m, (Prod.snd p).link = Prod.fst p

/-! # Lemma toolkit -/

/-! ## Association-list dictionaries -/

theorem dictLookup_insert_self {α : Type} (m : List (String × α)) (k : String) (v : α) :
    dictLookup (dictInsert m k v) k = some v := by
  induction m with
  | nil => simp [dictInsert, dictLookup]
  | cons p rest ih =>
      obtain ⟨k2, v2⟩ := p
      by_cases h : k2 = k
      · simp [dictInsert, dictLookup, h]
      · simp [dictInsert, dictLookup, h, ih]

theorem dictLookup_insert_ne {α : Type} (m : List (String × α)) (k k2 : String) (v : α)
    (h : k ≠ k2) : dictLookup (dictInsert m k v) k2 = dictLookup m k2 := by
  induction m with
  | nil => simp [dictInsert, dictLookup, h]
  | cons p rest ih =>
      obtain ⟨k3, v3⟩ := p
      by_cases h3 : k3 = k
      · subst h3
        simp [dictInsert, dictLookup, h]
      · simp [dictInsert, dictLookup, h3, ih]

theorem dictLookup_eq_none_iff {α : Type} (m : List (String × α)) (k : String) :
    dictLookup m k = none ↔ k ∉ m.map Prod.fst := by
  induction m with
  | nil => simp [dictLookup]
  | cons p rest ih =>
      obtain ⟨k2, v2⟩ := p
      by_cases h : k2 = k
      · simp [dictLookup, h]
      · simp [dictLookup, h, ih, Ne.symm h]

theorem dictInsert_of_not_mem_keys {α : Type} (m : List (String × α)) (k : String) (v : α)
    (h : k ∉ m.map Prod.fst) : dictInsert m k v = m ++ [(k, v)] := by
  induction m with
  | nil => simp [dictInsert]
  | cons p rest ih =>
      obtain ⟨k2, v2⟩ := p
      simp only [List.map_cons, List.mem_cons] at h
      push_neg at h
      simp [dictInsert, Ne.symm h.1, ih h.2]

theorem keys_dictInsert_of_mem {α : Type} (m : List (String × α)) (k : String) (v : α)
    (h : k ∈ m.map Prod.fst) : (dictInsert m k v).map Prod.fst = m.map Prod.fst := by
  induction m with
  | nil => simp at h
  | cons p rest ih =>
      obtain ⟨k2, v2⟩ := p
      by_cases h2 : k2 = k
      · simp [dictInsert, h2]
      · simp only [List.map_cons, List.mem_cons] at h
        rcases h with h | h
        · exact absurd h.symm h2
        · simp [dictInsert, h2, ih h]

theorem keys_dictInsert_nodup {α : Type} (m : List (String × α)) (k : String) (v : α)
    (h : (m.map Prod.fst).Nodup) : ((dictInsert m k v).map Prod.fst).Nodup := by
  by_cases hm : k ∈ m.map Prod.fst
  · rw [keys_dictInsert_of_mem m k v hm]; exact h
  · rw [dictInsert_of_not_mem_keys m k v hm]
    simp only [List.map_append, List.map_cons, List.map_nil]
    exact List.Nodup.append h (List.nodup_singleton k) (by
      intro x hx hx2
      simp at hx2
      subst hx2
      exact hm hx)

theorem mem_values_dictInsert {α : Type} (m : List (String × α)) (k : String) (v x : α)
    (h : x ∈ (dictInsert m k v).map Prod.snd) : x = v ∨ x ∈ m.map Prod.snd := by
  revert h
  induction m with
  | nil =>
      intro h
      simpa [dictInsert] using h
  | cons p rest ih =>
      obtain ⟨k2, v2⟩ := p
      intro h
      by_cases h2 : k2 = k
      · simp only [dictInsert, h2, if_pos, List.map_cons, List.mem_cons] at h
        simp only [List.map_cons, List.mem_cons]
        tauto
      · simp only [dictInsert, if_neg h2, List.map_cons, List.mem_cons] at h
        simp only [List.map_cons, List.mem_cons]
        rcases h with h | h
        · tauto
        · rcases ih h with h | h <;> tauto

theorem dictLookup_append {α : Type} (m1 m2 : List (String × α)) (k : String) :
    dictLookup (m1 ++ m2) k
      = match dictLookup m1 k with
        | some v => some v
        | none => dictLookup m2 k := by
  induction m1 with
  | nil => simp [dictLookup]
  | cons p rest ih =>
      obtain ⟨k2, v2⟩ := p
      by_cases h : k2 = k
      · simp [dictLookup, h]
      · simp [dictLookup, h, ih]

theorem pair_mem_of_dictLookup {α : Type} (m : List (String × α)) (k : String) (v : α)
    (h : dictLookup m k = some v) : (k, v) ∈ m := by
  revert h
  induction m with
  | nil =>
      intro h
      simp [dictLookup] at h
  | cons p rest ih =>
      obtain ⟨k2, v2⟩ := p
      intro h
      by_cases h2 : k2 = k
      · subst h2
        simp only [dictLookup, if_pos, Option.some.injEq] at h
        subst h
        exact List.mem_cons_self _ _
      · simp only [dictLookup, if_neg h2] at h
        exact List.mem_cons_of_mem _ (ih h)

theorem mem_dictInsert {α : Type} (m : List (String × α)) (k : String) (v : α) (p : String × α)
    (h : p ∈ dictInsert m k v) : p ∈ m ∨ p = (k, v) := by
  revert h
  induction m with
  | nil =>
      intro h
      simp [dictInsert] at h
      tauto
  | cons q rest ih =>
      obtain ⟨k2, v2⟩ := q
      intro h
      by_cases h2 : k2 = k
      · subst h2
        simp only [dictInsert, if_pos, List.mem_cons] at h
        rcases h with h | h
        · subst h; tauto
        · tauto
      · simp only [dictInsert, if_neg h2, List.mem_cons] at h
        rcases h with h | h
        · subst h; tauto
        · rcases ih h with h | h <;> tauto

theorem dictLookup_of_pair_mem_nodup {α : Type} (m : List (String × α)) (k : String) (v : α)
    (hn : (m.map Prod.fst).Nodup) (h : (k, v) ∈ m) : dictLookup m k = some v := by
  induction m with
  | nil => simp at h
  | cons q rest ih =>
      obtain ⟨k2, v2⟩ := q
      simp only [List.map_cons, List.nodup_cons] at hn
      rcases List.mem_cons.mp h with h | h
      · obtain ⟨hk, hv⟩ := Prod.mk.injEq .. ▸ h
        injection h with h1 h2
        subst h1; subst h2
        simp [dictLookup]
      · have hne : k2 ≠ k := by
          intro he
          subst he
          exact hn.1 (List.mem_map.mpr ⟨(k2, v), h, rfl⟩)
        simp [dictLookup, hne, ih hn.2 h]

/-! ## The dedup fold of `unique_by_link` -/

theorem dedupStep_good (m : List (String × Item)) (it : Item) (h : GoodMap m) :
    GoodMap (dedupStep m it) := by
  obtain ⟨hn, hl⟩ := h
  have insert_good : GoodMap (dictInsert m it.link it) := by
    refine ⟨keys_dictInsert_nodup m it.link it hn, ?_⟩
    intro p hp
    rcases mem_dictInsert m it.link it p hp with h | h
    · exact hl p h
    · subst h; rfl
  unfold dedupStep
  cases hlk : dictLookup m it.link with
  | none => exact insert_good
  | some b =>
      by_cases hs : b.score < it.score
      · simpa [hs] using insert_good
      · simpa [hs] using ⟨hn, hl⟩

theorem dedup_fold_good (l : List Item) (m : List (String × Item)) (h : GoodMap m) :
    GoodMap (l.foldl dedupStep m) := by
  induction l generalizing m with
  | nil => exact h
  | cons it rest ih => exact ih (dedupStep m it) (dedupStep_good m it h)

theorem mem_values_dedupStep (m : List (String × Item)) (it : Item) (x : Item)
    (h : x ∈ (dedupStep m it).map Prod.snd) : x ∈ m.map Prod.snd ∨ x = it := by
  unfold dedupStep at h
  cases hlk : dictLookup m it.link with
  | none =>
      simp only [hlk] at h
      exact Or.symm (mem_values_dictInsert m it.link it x h)
  | some b =>
      simp only [hlk] at h
      by_cases hs : b.score < it.score
      · rw [if_pos hs] at h
        exact Or.symm (mem_values_dictInsert m it.link it x h)
      · rw [if_neg hs] at h
        exact Or.inl h

theorem mem_values_dedup_fold (l : List Item) (m : List (String × Item)) (x : Item)
    (h : x ∈ (l.foldl dedupStep m).map Prod.snd) : x ∈ m.map Prod.snd ∨ x ∈ l := by
  induction l generalizing m with
  | nil => exact Or.inl h
  | cons it rest ih =>
      rcases ih (dedupStep m it) h with h2 | h2
      · rcases mem_values_dedupStep m it x h2 with h3 | h3
        · exact Or.inl h3
        · exact Or.inr (by simp [h3])
      · exact Or.inr (List.mem_cons_of_mem _ h2)

theorem dictLookup_dedupStep (m : List (String × Item)) (it : Item) (k : String) :
    dictLookup (dedupStep m it) k = bestStep k (dictLookup m k) it := by
  by_cases hl : it.link = k
  · subst hl
    unfold dedupStep bestStep
    cases hlk : dictLookup m it.link with
    | none => simp [hlk, dictLookup_insert_self]
    | some b =>
        by_cases hs : b.score < it.score
        · simp [hlk, hs, dictLookup_insert_self]
        · simp [hlk, hs]
  · unfold dedupStep bestStep
    rw [if_neg hl]
    cases hlk : dictLookup m it.link with
    | none => simp [dictLookup_insert_ne m it.link k it hl]
    | some b =>
        by_cases hs : b.score < it.score
        · simp [hs, dictLookup_insert_ne m it.link k it hl]
        · simp [hs]

theorem dedup_fold_lookup (l : List Item) (m : List (String × Item)) (k : String) :
    dictLookup (l.foldl dedupStep m) k = l.foldl (bestStep k) (dictLookup m k) := by
  induction l generalizing m with
  | nil => rfl
  | cons it rest ih =>
      simp only [List.foldl_cons]
      rw [ih (dedupStep m it), dictLookup_dedupStep]

theorem bestFold_some (k : String) (l : List Item) (acc : Option Item) (it : Item)
    (h : l.foldl (bestStep k) acc = some it) : acc = some it ∨ (it ∈ l ∧ it.link = k) := by
  induction l generalizing acc with
  | nil => exact Or.inl h
  | cons x rest ih =>
      simp only [List.foldl_cons] at h
      rcases ih (bestStep k acc x) h with h2 | h2
      · unfold bestStep at h2
        by_cases hl : x.link = k
        · rw [if_pos hl] at h2
          cases hacc : acc with
          | none =>
              simp only [hacc] at h2
              injection h2 with h3
              subst h3
              exact Or.inr ⟨List.mem_cons_self _ _, hl⟩
          | some b =>
              simp only [hacc] at h2
              by_cases hs : b.score < x.score
              · rw [if_pos hs] at h2
                injection h2 with h3
                subst h3
                exact Or.inr ⟨List.mem_cons_self _ _, hl⟩
              · rw [if_neg hs] at h2
                exact Or.inl h2
        · rw [if_neg hl] at h2
          exact Or.inl h2
      · exact Or.inr ⟨List.mem_cons_of_mem _ h2.1, h2.2⟩

theorem bestFold_max (k : String) (l : List Item) (acc : Option Item) (it : Item)
    (h : l.foldl (bestStep k) acc = some it) :
    (∀ b, acc = some b → b.score ≤ it.score)
    ∧ ∀ x ∈ l, x.link = k → x.score ≤ it.score := by
  induction l generalizing acc with
  | nil =>
      constructor
      · intro b hb
        rw [hb] at h
        injection h with h2
        subst h2
        exact le_refl _
      · intro x hx
        simp at hx
  | cons x rest ih =>
      simp only [List.foldl_cons] at h
      obtain ⟨ihacc, ihl⟩ := ih (bestStep k acc x) h
      constructor
      · intro b hb
        subst hb
        by_cases hl : x.link = k
        · by_cases hs : b.score < x.score
          · have hx : x.score ≤ it.score := ihacc x (by simp [bestStep, hl, hs])
            exact le_of_lt (lt_of_lt_of_le hs hx)
          · exact ihacc b (by simp [bestStep, hl, hs])
        · exact ihacc b (by simp [bestStep, hl])
      · intro y hy hyk
        rcases List.mem_cons.mp hy with hy | hy
        · subst hy
          cases hacc : acc with
          | none => exact ihacc y (by simp [bestStep, hyk, hacc])
          | some b =>
              by_cases hs : b.score < y.score
              · exact ihacc y (by simp [bestStep, hyk, hacc, hs])
              · have hb : b.score ≤ it.score := ihacc b (by simp [bestStep, hyk, hacc, hs])
                exact le_trans (not_lt.mp hs) hb
        · exact ihl y hy hyk

/-- The value a `bestStep` fold settles on is the FIRST list element
attaining the running maximum: unless it was already the accumulator, the
list splits around the result so that every earlier element with the link
has a strictly smaller score (the strict comparison of `unique_by_link`
never replaces on a tie). -/
theorem bestFold_first (k : String) (l : List Item) (acc : Option Item) (it : Item)
    (h : l.foldl (bestStep k) acc = some it) :
    acc = some it
    ∨ ∃ l₁ l₂, l = l₁ ++ it :: l₂
        ∧ (∀ x ∈ l₁, x.link = k → x.score < it.score)
        ∧ (∀ b, acc = some b → b.score < it.score) := by
  induction l generalizing acc with
  | nil => exact Or.inl h
  | cons x rest ih =>
      simp only [List.foldl_cons] at h
      rcases ih (bestStep k acc x) h with hA | hB
      · by_cases hl : x.link = k
        · obtain hacc | ⟨b, hacc⟩ : acc = none ∨ ∃ b, acc = some b := by
            cases acc with
            | none => exact Or.inl rfl
            | some b2 => exact Or.inr ⟨b2, rfl⟩
          · subst hacc
            simp [bestStep, hl] at hA
            right
            refine ⟨[], rest, by simp [hA], ?_, ?_⟩
            · intro y hy
              simp at hy
            · intro b hb
              simp at hb
          · subst hacc
            by_cases hs : b.score < x.score
            · simp [bestStep, hl, hs] at hA
              right
              refine ⟨[], rest, by simp [hA], ?_, ?_⟩
              · intro y hy
                simp at hy
              · intro b2 hb2
                simp only [Option.some.injEq] at hb2
                subst hb2
                rw [← hA]
                exact hs
            · simp [bestStep, hl, hs] at hA
              left
              rw [hA]
        · left
          have hstep : bestStep k acc x = acc := by
            simp [bestStep, hl]
          rw [hstep] at hA
          exact hA
      · obtain ⟨r1, r2, hsplit, hsmall, haccb⟩ := hB
        right
        have hxlt : x.link = k → x.score < it.score := by
          intro hl
          cases hacc : acc with
          | none => exact haccb x (by simp [bestStep, hl, hacc])
          | some b =>
              by_cases hs : b.score < x.score
              · exact haccb x (by simp [bestStep, hl, hacc, hs])
              · have hb := haccb b (by simp [bestStep, hl, hacc, hs])
                exact lt_of_le_of_lt (not_lt.mp hs) hb
        refine ⟨x :: r1, r2, by simp [hsplit], ?_, ?_⟩
        · intro y hy hyk
          rcases List.mem_cons.mp hy with h1 | h1
          · subst h1
            exact hxlt hyk
          · exact hsmall y h1 hyk
        · intro b hb
          by_cases hl : x.link = k
          · by_cases hs : b.score < x.score
            · have hx : x.score < it.score := by
                apply haccb x
                simp [bestStep, hl, hb, hs]
              exact lt_trans hs hx
            · exact haccb b (by simp [bestStep, hl, hb, hs])
          · exact haccb b (by simp [bestStep, hl, hb])

/-- A fold of `bestStep` yields a value exactly when the accumulator holds
one or some list element has the link. -/
theorem bestFold_isSome (k : String) (l : List Item) (acc : Option Item) :
    (l.foldl (bestStep k) acc).isSome
      = (acc.isSome || l.any (fun x => x.link = k)) := by
  induction l generalizing acc with
  | nil => simp
  | cons x rest ih =>
      simp only [List.foldl_cons, List.any_cons]
      rw [ih (bestStep k acc x)]
      by_cases hl : x.link = k
      · cases hacc : acc with
        | none => simp [bestStep, hl]
        | some b => by_cases hs : b.score < x.score <;> simp [bestStep, hl, hs]
      · simp [bestStep, hl]

/-- Keys of the map built by `unique_by_link`, read off the stored items. -/
theorem values_links_eq_keys (m : List (String × Item))
    (h : ∀ p ∈ m, (Prod.snd p).link = Prod.fst p) :
    (m.map Prod.snd).map (fun it => it.link) = m.map Prod.fst := by
  induction m with
  | nil => rfl
  | cons p rest ih =>
      simp only [List.map_cons, List.cons.injEq]
      exact ⟨h p (List.mem_cons_self _ _), ih fun q hq => h q (List.mem_cons_of_mem _ hq)⟩

/-- Fresh-input form of the dedup fold: when no incoming link collides with
the accumulator or another incoming link, the fold appends verbatim. -/
theorem dedup_fold_fresh (l : List Item) (m : List (String × Item))
    (hfresh : ∀ x ∈ l, dictLookup m x.link = none)
    (hnd : (l.map (fun it => it.link)).Nodup) :
    l.foldl dedupStep m = m ++ l.map (fun it => (it.link, it)) := by
  induction l generalizing m with
  | nil => simp
  | cons it rest ih =>
      simp only [List.map_cons, List.nodup_cons] at hnd
      have hm : dictLookup m it.link = none := hfresh it (List.mem_cons_self _ _)
      have hstep : dedupStep m it = m ++ [(it.link, it)] := by
        unfold dedupStep
        rw [hm]
        exact dictInsert_of_not_mem_keys m it.link it ((dictLookup_eq_none_iff m it.link).mp hm)
      have hfresh2 : ∀ x ∈ rest, dictLookup (m ++ [(it.link, it)]) x.link = none := by
        intro x hx
        rw [dictLookup_append]
        rw [hfresh x (List.mem_cons_of_mem _ hx)]
        have : it.link ≠ x.link := by
          intro he
          exact hnd.1 (he ▸ List.mem_map.mpr ⟨x, hx, rfl⟩)
        simp [dictLookup, this]
      simp only [List.foldl_cons, hstep]
      rw [ih (m ++ [(it.link, it)]) hfresh2 hnd.2]
      simp

/-! ## Stable sort lemmas -/

theorem pyInsert_perm {α : Type} (le : α → α → Bool) (x : α) (l : List α) :
    List.Perm (pyInsert le x l) (x :: l) := by
  induction l with
  | nil => exact List.Perm.refl _
  | cons y ys ih =>
      unfold pyInsert
      by_cases h : le x y = true
      · rw [if_pos h]
      · rw [if_neg h]
        exact List.Perm.trans (List.Perm.cons y ih) (List.Perm.swap x y ys)

theorem pyStableSort_perm {α : Type} (le : α → α → Bool) (l : List α) :
    List.Perm (pyStableSort le l) l := by
  induction l with
  | nil => exact List.Perm.refl _
  | cons x xs ih =>
      unfold pyStableSort
      exact List.Perm.trans (pyInsert_perm le x (pyStableSort le xs)) (List.Perm.cons x ih)

/-- A list already ordered for `le` is a fixed point of the sort. -/
theorem pyStableSort_of_pairwise {α : Type} (le : α → α → Bool) (l : List α)
    (h : l.Pairwise (fun a b => le a b = true)) : pyStableSort le l = l := by
  induction l with
  | nil => rfl
  | cons x xs ih =>
      rw [List.pairwise_cons] at h
      unfold pyStableSort
      rw [ih h.2]
      cases xs with
      | nil => rfl
      | cons y ys =>
          unfold pyInsert
          rw [if_pos (h.1 y (List.mem_cons_self _ _))]

/-! ## `unique_by_link` -/

theorem unique_by_link_good (l : List Item) : GoodMap (l.foldl dedupStep []) :=
  dedup_fold_good l [] ⟨List.nodup_nil, by intro p hp; simp at hp⟩

theorem unique_by_link_links_nodup (l : List Item) :
    ((unique_by_link l).map (fun it => it.link)).Nodup := by
  obtain ⟨hn, hl⟩ := unique_by_link_good l
  unfold unique_by_link
  rw [values_links_eq_keys _ hl]
  exact hn

theorem mem_unique_by_link (l : List Item) (x : Item) (h : x ∈ unique_by_link l) : x ∈ l := by
  rcases mem_values_dedup_fold l [] x h with h2 | h2
  · simp at h2
  · exact h2

theorem unique_by_link_lookup (l : List Item) (k : String) :
    dictLookup (l.foldl dedupStep []) k = bestFor l k :=
  dedup_fold_lookup l [] k

/-- Every retained item is a first-ranked representative of its link
class: it occurs in the input and no input item with the same link has a
strictly higher score. -/
theorem unique_by_link_retains_max (l : List Item) (it : Item) (h : it ∈ unique_by_link l) :
    it ∈ l ∧ ∀ x ∈ l, x.link = it.link → x.score ≤ it.score := by
  obtain ⟨hn, hlinks⟩ := unique_by_link_good l
  obtain ⟨p, hp, hsnd⟩ := List.mem_map.mp h
  have hfst : p = (it.link, it) := by
    have := hlinks p hp
    rw [hsnd] at this
    obtain ⟨k2, v2⟩ := p
    simp only at hsnd this
    rw [hsnd, this]
  subst hfst
  have hlk : dictLookup (l.foldl dedupStep []) it.link = some it :=
    dictLookup_of_pair_mem_nodup _ _ _ hn hp
  rw [unique_by_link_lookup] at hlk
  have hsome := bestFold_some it.link l none it hlk
  have hmax := bestFold_max it.link l none it hlk
  refine ⟨?_, fun x hx hxl => hmax.2 x hx hxl⟩
  rcases hsome with h2 | h2
  · exact absurd h2 (by simp)
  · exact h2.1

/-- Every retained item is the value the `bestStep` fold settles on for
its link. -/
theorem unique_by_link_bestFor (l : List Item) (it : Item) (h : it ∈ unique_by_link l) :
    bestFor l it.link = some it := by
  obtain ⟨hn, hlinks⟩ := unique_by_link_good l
  obtain ⟨p, hp, hsnd⟩ := List.mem_map.mp h
  have hfst : p = (it.link, it) := by
    have := hlinks p hp
    rw [hsnd] at this
    obtain ⟨k2, v2⟩ := p
    simp only at hsnd this
    rw [hsnd, this]
  subst hfst
  have hlk : dictLookup (l.foldl dedupStep []) it.link = some it :=
    dictLookup_of_pair_mem_nodup _ _ _ hn hp
  rw [unique_by_link_lookup] at hlk
  exact hlk

/-- General tie-break direction: the retained item for a link is the FIRST
processed among those of maximal score — every input item BEFORE it with
the same link has a strictly smaller score. -/
theorem unique_by_link_first_of_ties (l : List Item) (it : Item) (h : it ∈ unique_by_link l) :
    ∃ l1 l2, l = l1 ++ it :: l2 ∧ ∀ x ∈ l1, x.link = it.link → x.score < it.score := by
  have hlk := unique_by_link_bestFor l it h
  rcases bestFold_first it.link l none it hlk with hA | hB
  · exact absurd hA (by simp)
  · obtain ⟨l1, l2, hsplit, hsmall, -⟩ := hB
    exact ⟨l1, l2, hsplit, hsmall⟩

/-- A link occurs among the retained items exactly when some input item
carries it. -/
theorem unique_by_link_links_iff (l : List Item) (k : String) :
    (∃ x ∈ l, x.link = k) ↔ ∃ it ∈ unique_by_link l, it.link = k := by
  constructor
  · intro ⟨x, hx, hxk⟩
    have hsome : (bestFor l k).isSome = true := by
      unfold bestFor
      rw [bestFold_isSome]
      simp only [Option.isSome_none, Bool.false_or, List.any_eq_true]
      exact ⟨x, hx, by simp [hxk]⟩
    obtain ⟨it, hit⟩ := Option.isSome_iff_exists.mp hsome
    have hlk : dictLookup (l.foldl dedupStep []) k = some it := by
      rw [unique_by_link_lookup]; exact hit
    have hmem : it ∈ unique_by_link l :=
      List.mem_map.mpr ⟨(k, it), pair_mem_of_dictLookup _ _ _ hlk, rfl⟩
    have hlink : it.link = k := by
      rcases bestFold_some k l none it hit with h2 | h2
      · exact absurd h2 (by simp)
      · exact h2.2
    exact ⟨it, hmem, hlink⟩
  · intro ⟨it, hit, hitk⟩
    exact ⟨it, mem_unique_by_link l it hit, hitk⟩

/-! ## `processEntry` characterization -/

theorem score_for_host_ge_one (h : String) : 1 ≤ score_for_host h := by
  unfold score_for_host
  split_ifs <;> norm_num

theorem processEntry_spec (cfg : Config) (sinceDays : Int) (today : Nat) (e : RawEntry)
    (it : Item) (h : processEntry cfg sinceDays today e = some it) :
    it.date = e.date
    ∧ it.title = normalize_text e.title
    ∧ it.link = e.link
    ∧ it.host = hostname e.link
    ∧ it.keywords = none
    ∧ it.cluster_id = -1
    ∧ it.title ≠ ""
    ∧ it.link ≠ ""
    ∧ it.score = score_for_host (hostname e.link)
        + (if resSearch (entryText e) then 2 else 0)
        + (if nitsSearch (entryText e) then 1 else 0)
        + (if matteSearch (entryText e) then 1 else 0) := by
  simp only [processEntry] at h
  by_cases h1 : (normalize_text e.title = "" ∨ e.link = "")
  · rw [if_pos (by simpa using h1)] at h
    cases h
  · rw [if_neg (by simpa using h1)] at h
    push_neg at h1
    by_cases h2 : filter_accept cfg (hostname e.link) (entryText e) = true
    · rw [if_neg (by simp [h2])] at h
      by_cases h3 : within_window today e.date sinceDays = true
      · rw [if_neg (by simp [h3])] at h
        injection h with h4
        subst h4
        refine ⟨rfl, rfl, rfl, rfl, rfl, rfl, h1.1, h1.2, rfl⟩
      · rw [if_pos (by simpa using h3)] at h
        cases h
    · rw [if_pos (by simpa using h2)] at h
      cases h

/-! ## Normalizer lemmas -/

theorem mem_collapseGo (l : List Char) (b : Bool) (x : Char) (h : x ∈ collapseGo b l) :
    x = ' ' ∨ x ∈ l := by
  induction l generalizing b with
  | nil => simp [collapseGo] at h
  | cons c cs ih =>
      unfold collapseGo at h
      by_cases hc : isPySpace c = true
      · rw [if_pos hc] at h
        by_cases hb : b = true
        · subst hb
          simp only [if_pos rfl] at h
          rcases ih true h with h2 | h2
          · exact Or.inl h2
          · exact Or.inr (List.mem_cons_of_mem _ h2)
        · simp only [Bool.not_eq_true] at hb
          subst hb
          rw [if_neg (by simp)] at h
          rcases List.mem_cons.mp h with h | h
          · exact Or.inl h
          · rcases ih true h with h2 | h2
            · exact Or.inl h2
            · exact Or.inr (List.mem_cons_of_mem _ h2)
      · rw [if_neg hc] at h
        rcases List.mem_cons.mp h with h2 | h2
        · exact Or.inr (h2 ▸ List.mem_cons_self _ _)
        · rcases ih false h2 with h3 | h3
          · exact Or.inl h3
          · exact Or.inr (List.mem_cons_of_mem _ h3)

theorem mem_pyStripChars (l : List Char) (x : Char) (h : x ∈ pyStripChars l) : x ∈ l := by
  unfold pyStripChars at h
  rw [List.mem_reverse] at h
  have h2 := (List.dropWhile_sublist _).mem h
  rw [List.mem_reverse] at h2
  exact (List.dropWhile_sublist _).mem h2

theorem replaceTimesSign_no_times (l : List Char) : '×' ∉ replaceTimesSign l := by
  intro h
  obtain ⟨c, _, hc⟩ := List.mem_map.mp h
  by_cases h2 : c = '×' <;> simp [h2] at hc

/-- Head of a collapse in run-skipping state is never whitespace. -/
theorem collapseGo_true_head (l : List Char) (c : Char)
    (h : (collapseGo true l).head? = some c) : isPySpace c = false := by
  induction l with
  | nil => simp [collapseGo] at h
  | cons x xs ih =>
      unfold collapseGo at h
      by_cases hx : isPySpace x = true
      · rw [if_pos hx, if_pos rfl] at h
        exact ih h
      · rw [if_neg hx] at h
        simp only [List.head?_cons, Option.some.injEq] at h
        subst h
        simpa using hx

/-- The collapsed text never holds two adjacent whitespace characters. -/
theorem collapseGo_chain (l : List Char) (b : Bool) :
    (collapseGo b l).Chain' (fun a c => isPySpace a = false ∨ isPySpace c = false) := by
  induction l generalizing b with
  | nil => simp [collapseGo]
  | cons x xs ih =>
      unfold collapseGo
      by_cases hx : isPySpace x = true
      · rw [if_pos hx]
        by_cases hb : b = true
        · subst hb
          simpa using ih true
        · simp only [Bool.not_eq_true] at hb
          subst hb
          simp only [Bool.false_eq_true, if_neg]
          refine List.chain'_cons'.mpr ⟨?_, ih true⟩
          intro y hy
          exact Or.inr (collapseGo_true_head xs y hy)
      · rw [if_neg hx]
        refine List.chain'_cons'.mpr ⟨?_, ih false⟩
        intro y _
        exact Or.inl (by simpa using hx)

theorem dropWhile_head_not {α : Type} (p : α → Bool) (l : List α) (c : α)
    (h : (l.dropWhile p).head? = some c) : p c = false := by
  induction l with
  | nil => simp [List.dropWhile] at h
  | cons x xs ih =>
      rw [List.dropWhile_cons] at h
      by_cases hx : p x = true
      · rw [if_pos hx] at h
        exact ih h
      · rw [if_neg hx] at h
        simp only [List.head?_cons, Option.some.injEq] at h
        subst h
        simpa using hx

theorem pyStripChars_head (l : List Char) (c : Char)
    (h : (pyStripChars l).head? = some c) : isPySpace c = false := by
  unfold pyStripChars at h
  set A := l.dropWhile isPySpace with hA
  have hpre : (A.reverse.dropWhile isPySpace).reverse <+: A := by
    rw [← List.reverse_suffix]
    simp only [List.reverse_reverse]
    exact List.dropWhile_suffix _
  obtain ⟨t, ht⟩ := hpre
  cases hB : (A.reverse.dropWhile isPySpace).reverse with
  | nil => rw [hB] at h; simp at h
  | cons b bs =>
      rw [hB] at h ht
      simp only [List.head?_cons, Option.some.injEq] at h
      have hhead : A.head? = some b := by rw [← ht]; rfl
      rw [hA] at hhead
      rw [← h]
      exact dropWhile_head_not isPySpace l b hhead

theorem pyStripChars_getLast (l : List Char) (c : Char)
    (h : (pyStripChars l).getLast? = some c) : isPySpace c = false := by
  unfold pyStripChars at h
  rw [List.getLast?_reverse] at h
  exact dropWhile_head_not isPySpace _ c h

/-! # Claims -/

/-- C1: for every entry that survives filtering, the score produced by the
scoring stage is the host-tier base (3 for the official host set, 2 for the
reliable host set, 1 otherwise) plus 2 when the text matches the
display-resolution pattern, plus 1 for the brightness pattern, plus 1 for
the matte/anti-glare pattern; consequently every surviving item has score
at least 1, and an official-host item whose text matches all three bonus
patterns scores exactly 7. -/
theorem c1_scoring (cfg : Config) (sinceDays : Int) (today : Nat) (e : RawEntry) (it : Item)
    (h : processEntry cfg sinceDays today e = some it) :
    it.score = score_for_host it.host
        + (if resSearch (entryText e) then 2 else 0)
        + (if nitsSearch (entryText e) then 1 else 0)
        + (if matteSearch (entryText e) then 1 else 0)
    ∧ 1 ≤ it.score
    ∧ (it.host ∈ HIGH_SOURCES → resSearch (entryText e) = true →
        nitsSearch (entryText e) = true → matteSearch (entryText e) = true →
        it.score = 7) := by
  obtain ⟨-, -, -, hhost, -, -, -, -, hscore⟩ := processEntry_spec cfg sinceDays today e it h
  rw [← hhost] at hscore
  refine ⟨hscore, ?_, ?_⟩
  · rw [hscore]
    have h1 := score_for_host_ge_one it.host
    split_ifs <;> omega
  · intro hmem hr hn hm
    rw [hscore, hr, hn, hm]
    simp [score_for_host, hmem]

theorem c1_scoring_witness :
    (Item.mk "2026-10-10" 7 "ThinkPad X1 2560x1600 matte 400 nits"
      "https://news.lenovo.com/x1" "news.lenovo.com" none (-1)).score = 7 := by
  have h := c1_scoring ⟨[], [], [], [], false, 14⟩ 14 (toOrdinal 2026 10 12)
      ⟨"ThinkPad X1 2560x1600 matte 400 nits", "https://news.lenovo.com/x1", "", "2026-10-10"⟩
      (Item.mk "2026-10-10" 7 "ThinkPad X1 2560x1600 matte 400 nits"
        "https://news.lenovo.com/x1" "news.lenovo.com" none (-1))
      (by decide)
  exact h.2.2 (by decide) (by decide) (by decide) (by decide)

/-- C3 (counterexample): on two items with the same link and equal scores,
`unique_by_link` keeps the FIRST processed item, not the last, refuting the
tie-breaking direction stated by the claim. -/
theorem c3_dedup_tie_counterexample :
    unique_by_link
        [Item.mk "2026-01-01" 1 "first" "https://e.com/a" "e.com" none (-1),
         Item.mk "2026-01-01" 1 "second" "https://e.com/a" "e.com" none (-1)]
      = [Item.mk "2026-01-01" 1 "first" "https://e.com/a" "e.com" none (-1)]
    ∧ unique_by_link
        [Item.mk "2026-01-01" 1 "first" "https://e.com/a" "e.com" none (-1),
         Item.mk "2026-01-01" 1 "second" "https://e.com/a" "e.com" none (-1)]
      ≠ [Item.mk "2026-01-01" 1 "second" "https://e.com/a" "e.com" none (-1)] := by
  constructor
  · decide
  · decide

/-- C3 (amended): deduplication returns one item per distinct link; when
several items share a link it keeps one of highest score, and when the
highest score is tied it deterministically keeps the FIRST processed of
the tied items — for every input list, all same-link items processed
before the retained one score strictly lower, so the retained item is the
earliest maximal one; from two entries with identical link and scores 1
and 2, exactly the score-2 entry is kept. -/
theorem c3_dedup_amended (l : List Item) :
    ((unique_by_link l).map (fun it => it.link)).Nodup
    ∧ (∀ k, (∃ x ∈ l, x.link = k) ↔ ∃ it ∈ unique_by_link l, it.link = k)
    ∧ (∀ it ∈ unique_by_link l, it ∈ l ∧ ∀ x ∈ l, x.link = it.link → x.score ≤ it.score)
    ∧ (∀ it ∈ unique_by_link l,
        ∃ l1 l2, l = l1 ++ it :: l2 ∧ ∀ x ∈ l1, x.link = it.link → x.score < it.score)
    ∧ (∀ a b : Item, a.link = b.link → a.score < b.score → unique_by_link [a, b] = [b]) := by
  refine ⟨unique_by_link_links_nodup l, fun k => unique_by_link_links_iff l k,
    fun it h => unique_by_link_retains_max l it h,
    fun it h => unique_by_link_first_of_ties l it h, ?_⟩
  intro a b hl hs
  show (List.foldl dedupStep [] [a, b]).map Prod.snd = [b]
  simp only [List.foldl_cons, List.foldl_nil]
  have s1 : dedupStep [] a = [(a.link, a)] := by
    simp [dedupStep, dictLookup, dictInsert]
  rw [s1]
  have s2 : dedupStep [(a.link, a)] b = [(a.link, b)] := by
    unfold dedupStep
    have hlk : dictLookup [(a.link, a)] b.link = some a := by
      simp [dictLookup, hl]
    simp only [hlk]
    rw [if_pos hs]
    simp [dictInsert, hl]
  rw [s2]
  rfl

theorem c3_dedup_amended_witness :
    unique_by_link
        [Item.mk "2026-01-01" 1 "t1" "https://e.com/a" "e.com" none (-1),
         Item.mk "2026-01-01" 2 "t2" "https://e.com/a" "e.com" none (-1)]
      = [Item.mk "2026-01-01" 2 "t2" "https://e.com/a" "e.com" none (-1)] :=
  (c3_dedup_amended []).2.2.2.2
    (Item.mk "2026-01-01" 1 "t1" "https://e.com/a" "e.com" none (-1))
    (Item.mk "2026-01-01" 2 "t2" "https://e.com/a" "e.com" none (-1))
    rfl (by decide)

/-- C7: deduplication is idempotent — applying `unique_by_link` to its own
output returns that output unchanged. -/
theorem c7_dedup_idempotent (l : List Item) :
    unique_by_link (unique_by_link l) = unique_by_link l := by
  have hnd := unique_by_link_links_nodup l
  have hfresh : ∀ x ∈ unique_by_link l, dictLookup ([] : List (String × Item)) x.link = none :=
    fun x _ => rfl
  show ((unique_by_link l).foldl dedupStep []).map Prod.snd = unique_by_link l
  rw [dedup_fold_fresh (unique_by_link l) [] hfresh hnd]
  simp only [List.nil_append, List.map_map]
  exact List.map_congr_left (fun a _ => rfl) |>.trans (List.map_id _)

/-- C9: after deduplication every item of the output has a non-empty link,
a non-empty title, and a link distinct from that of every other output
item. -/
theorem c9_output_invariants (cfg : Config) (sinceDays : Int) (today : Nat)
    (entries : List RawEntry) :
    (∀ it ∈ run_items cfg sinceDays today entries, it.link ≠ "" ∧ it.title ≠ "")
    ∧ ((run_items cfg sinceDays today entries).map (fun it => it.link)).Nodup := by
  refine ⟨?_, unique_by_link_links_nodup _⟩
  intro it hit
  have hmem := mem_unique_by_link _ it hit
  obtain ⟨e, _, hpe⟩ := List.mem_filterMap.mp hmem
  obtain ⟨-, -, -, -, -, -, ht, hl, -⟩ := processEntry_spec cfg sinceDays today e it hpe
  exact ⟨hl, ht⟩

theorem c9_output_invariants_witness :
    (Item.mk "2026-10-10" 7 "ThinkPad X1 2560x1600 matte 400 nits"
        "https://news.lenovo.com/x1" "news.lenovo.com" none (-1)).link ≠ ""
    ∧ (Item.mk "2026-10-10" 7 "ThinkPad X1 2560x1600 matte 400 nits"
        "https://news.lenovo.com/x1" "news.lenovo.com" none (-1)).title ≠ "" :=
  (c9_output_invariants ⟨[], [], [], [], false, 14⟩ 14 (toOrdinal 2026 10 12)
      [⟨"ThinkPad X1 2560x1600 matte 400 nits", "https://news.lenovo.com/x1", "", "2026-10-10"⟩]).1
    (Item.mk "2026-10-10" 7 "ThinkPad X1 2560x1600 matte 400 nits"
      "https://news.lenovo.com/x1" "news.lenovo.com" none (-1))
    (by decide)

/-- C2: the filter applies four exclusionary rules — blocklist (equality or
subdomain), CJK characters when `exclude_cjk` is set, exclude patterns,
and non-empty include patterns with no match — and a candidate passes
exactly when it survives all four; with empty include patterns the fourth
rule rejects nothing. -/
theorem c2_filter_rules (cfg : Config) (h text : String) :
    (filter_accept cfg h text = true ↔
      ((¬ ∃ d ∈ cfg.domain_blocklist, h = d ∨ strEndsWith h ("." ++ d) = true)
       ∧ ¬ (cfg.exclude_cjk = true ∧ ∃ c ∈ text.data, isCJK c = true)
       ∧ ¬ (∃ p ∈ cfg.exclude_patterns, p text = true)
       ∧ ¬ (cfg.include_patterns ≠ [] ∧ ∀ p ∈ cfg.include_patterns, ¬ p text = true)))
    ∧ (cfg.include_patterns = [] →
        (filter_accept cfg h text = true ↔
          ((¬ ∃ d ∈ cfg.domain_blocklist, h = d ∨ strEndsWith h ("." ++ d) = true)
           ∧ ¬ (cfg.exclude_cjk = true ∧ ∃ c ∈ text.data, isCJK c = true)
           ∧ ¬ (∃ p ∈ cfg.exclude_patterns, p text = true)))) := by
  have hblocked : blockedHost cfg.domain_blocklist h = true
      ↔ ∃ d ∈ cfg.domain_blocklist, h = d ∨ strEndsWith h ("." ++ d) = true := by
    simp [blockedHost, List.any_eq_true]
  have hcjk : cjkSearch text = true ↔ ∃ c ∈ text.data, isCJK c = true := by
    simp [cjkSearch, List.any_eq_true]
  have hmatch : ∀ pats : List (String → Bool),
      matches_any pats text = true ↔ ∃ p ∈ pats, p text = true := by
    intro pats
    simp [matches_any, List.any_eq_true]
  have hne_of_ex : ∀ pats : List (String → Bool),
      (∃ p ∈ pats, p text = true) → pats.isEmpty = false := by
    intro pats hex
    obtain ⟨p, hp, -⟩ := hex
    cases pats with
    | nil => simp at hp
    | cons q qs => rfl
  have main : filter_accept cfg h text = true ↔
      ((¬ ∃ d ∈ cfg.domain_blocklist, h = d ∨ strEndsWith h ("." ++ d) = true)
       ∧ ¬ (cfg.exclude_cjk = true ∧ ∃ c ∈ text.data, isCJK c = true)
       ∧ ¬ (∃ p ∈ cfg.exclude_patterns, p text = true)
       ∧ ¬ (cfg.include_patterns ≠ [] ∧ ∀ p ∈ cfg.include_patterns, ¬ p text = true)) := by
    unfold filter_accept
    split_ifs with h1 h2 h3 h4
    · simp only [Bool.false_eq_true, false_iff]
      intro hcontra
      exact hcontra.1 (hblocked.mp h1)
    · simp only [Bool.false_eq_true, false_iff]
      intro hcontra
      rw [Bool.and_eq_true] at h2
      exact hcontra.2.1 ⟨h2.1, hcjk.mp h2.2⟩
    · simp only [Bool.false_eq_true, false_iff]
      intro hcontra
      rw [Bool.and_eq_true] at h3
      exact hcontra.2.2.1 ((hmatch _).mp h3.2)
    · simp only [Bool.false_eq_true, false_iff]
      intro hcontra
      rw [Bool.and_eq_true] at h4
      refine hcontra.2.2.2 ⟨?_, ?_⟩
      · intro hnil
        rw [hnil] at h4
        simp at h4
      · intro p hp hpt
        have hm2 : matches_any cfg.include_patterns text = true := (hmatch _).mpr ⟨p, hp, hpt⟩
        rw [hm2] at h4
        simp at h4
    · simp only [true_iff]
      refine ⟨?_, ?_, ?_, ?_⟩
      · intro hex
        exact h1 (hblocked.mpr hex)
      · rintro ⟨hc1, hc2⟩
        apply h2
        rw [Bool.and_eq_true]
        exact ⟨hc1, hcjk.mpr hc2⟩
      · intro hex
        apply h3
        rw [Bool.and_eq_true]
        refine ⟨?_, (hmatch _).mpr hex⟩
        rw [hne_of_ex _ hex]
        rfl
      · rintro ⟨hne, hall⟩
        have hno : matches_any cfg.include_patterns text = false := by
          rw [← Bool.not_eq_true]
          intro habs
          obtain ⟨p, hp, hpt⟩ := (hmatch _).mp habs
          exact hall p hp hpt
        apply h4
        rw [Bool.and_eq_true]
        refine ⟨?_, by rw [hno]; rfl⟩
        cases hcase : cfg.include_patterns with
        | nil => exact absurd hcase hne
        | cons q qs => rfl
  refine ⟨main, ?_⟩
  intro hempty
  rw [main]
  constructor
  · rintro ⟨a, b, c, -⟩
    exact ⟨a, b, c⟩
  · rintro ⟨a, b, c⟩
    refine ⟨a, b, c, ?_⟩
    rintro ⟨hne, -⟩
    exact hne hempty

theorem c2_filter_rules_witness :
    filter_accept ⟨[], [], [], [], false, 14⟩ "news.lenovo.com" "thinkpad" = true := by
  have h := (c2_filter_rules ⟨[], [], [], [], false, 14⟩ "news.lenovo.com" "thinkpad").2 rfl
  exact h.mpr ⟨by simp, by simp, by simp⟩

/-- C5: a merged record is kept exactly when its parsed date lies within
the 365-day retention window of the current date, boundary inclusive — a
record dated exactly 365 days before today is retained, one dated 366 days
before is excluded — and a record whose date string does not parse is
retained. -/
theorem c5_retention (today : Nat) (r : NewsRecord) :
    (∀ d, parseIsoDate r.date = some d →
      ((recent_only today r = true ↔ (d : Int) ≥ (today : Int) - 365)
       ∧ (today = d + 365 → recent_only today r = true)
       ∧ (today = d + 366 → recent_only today r = false)))
    ∧ (parseIsoDate r.date = none → recent_only today r = true) := by
  constructor
  · intro d hd
    unfold recent_only
    simp only [hd]
    refine ⟨by simp, ?_, ?_⟩
    · intro ht
      subst ht
      simp only [decide_eq_true_eq]
      push_cast
      omega
    · intro ht
      subst ht
      simp only [decide_eq_false_iff_not]
      push_cast
      omega
  · intro hd
    unfold recent_only
    simp only [hd]

theorem c5_retention_witness :
    recent_only (toOrdinal 2026 10 12) (NewsRecord.mk "2025-10-12" 3 "t" "L" "h" [] (-1)) = true
    ∧ recent_only (toOrdinal 2026 10 12) (NewsRecord.mk "2025-10-11" 3 "t" "L" "h" [] (-1)) = false
    ∧ recent_only (toOrdinal 2026 10 12) (NewsRecord.mk "not-a-date" 3 "t" "L" "h" [] (-1)) = true := by
  refine ⟨?_, ?_, ?_⟩
  · exact ((c5_retention (toOrdinal 2026 10 12) _).1 (toOrdinal 2025 10 12) (by decide)).2.1 (by decide)
  · exact ((c5_retention (toOrdinal 2026 10 12) _).1 (toOrdinal 2025 10 11) (by decide)).2.2 (by decide)
  · exact (c5_retention (toOrdinal 2026 10 12) _).2 (by decide)

/-- C8: the text normalizer is a total function of the input (the `except`
fallback of the Python body is unreachable in the embedding), and its
output reflects the normalization pipeline: the Unicode multiplication
sign never survives (it is decoded and then mapped to `x` before the final
steps), no two adjacent output characters are both whitespace, and the
output is trimmed on both ends. -/
theorem c8_normalize_total_and_normalized (s : String) :
    ('×' ∉ (normalize_text s).data)
    ∧ (normalize_text s).data.Chain' (fun a b => isPySpace a = false ∨ isPySpace b = false)
    ∧ (∀ c, (normalize_text s).data.head? = some c → isPySpace c = false)
    ∧ (∀ c, (normalize_text s).data.getLast? = some c → isPySpace c = false) := by
  have hdata : (normalize_text s).data
      = pyStripChars (collapseGo false (replaceTimesSign (stripTags (pyUnescape s)).data)) := rfl
  refine ⟨?_, ?_, ?_, ?_⟩
  · rw [hdata]
    intro hmem
    have h1 := mem_pyStripChars _ _ hmem
    rcases mem_collapseGo _ _ _ h1 with h2 | h2
    · exact absurd h2 (by decide)
    · exact replaceTimesSign_no_times _ h2
  · rw [hdata]
    have hchain := collapseGo_chain (replaceTimesSign (stripTags (pyUnescape s)).data) false
    set L := collapseGo false (replaceTimesSign (stripTags (pyUnescape s)).data) with hL
    have hsuffix : L.dropWhile isPySpace <:+ L := List.dropWhile_suffix _
    have hpre : (( L.dropWhile isPySpace).reverse.dropWhile isPySpace).reverse
        <+: L.dropWhile isPySpace := by
      rw [← List.reverse_suffix]
      simp only [List.reverse_reverse]
      exact List.dropWhile_suffix _
    have hinfix : pyStripChars L <:+: L := by
      obtain ⟨t, ht⟩ := hpre
      obtain ⟨u, hu⟩ := hsuffix
      refine ⟨u, t, ?_⟩
      have ht2 : pyStripChars L ++ t = List.dropWhile isPySpace L := ht
      rw [List.append_assoc, ht2]
      exact hu
    exact List.Chain'.infix hchain hinfix
  · rw [hdata]
    intro c hc
    exact pyStripChars_head _ c hc
  · rw [hdata]
    intro c hc
    exact pyStripChars_getLast _ c hc

theorem c8_normalize_witness : isPySpace 'a' = false :=
  (c8_normalize_total_and_normalized "  a×b  <i>c</i>  ").2.2.1 'a' (by decide)

theorem bucketKey_mem (s : Int) : bucketKey s ∈ (["1", "2", "3", "4+"] : List String) := by
  unfold bucketKey
  by_cases h4 : 4 ≤ s
  · rw [if_pos h4]
    decide
  · rw [if_neg h4]
    have hmin : min s 3 = s := min_eq_left (by omega)
    rw [hmin]
    have hcase : s ≤ 0 ∨ s = 1 ∨ s = 2 ∨ s = 3 := by omega
    rcases hcase with hc | hc | hc | hc
    · rw [max_eq_right (by omega : s ≤ (1 : Int))]
      decide
    · subst hc; decide
    · subst hc; decide
    · subst hc; decide

theorem tallyStep_keys (m : List (String × Nat)) (k : String) (h : k ∈ m.map Prod.fst) :
    (tallyStep m k).map Prod.fst = m.map Prod.fst :=
  keys_dictInsert_of_mem m k _ h

theorem tallyStep_sum (m : List (String × Nat)) (k : String) :
    ((tallyStep m k).map Prod.snd).sum = (m.map Prod.snd).sum + 1 := by
  induction m with
  | nil => simp [tallyStep, dictInsert, dictLookup]
  | cons p rest ih =>
      obtain ⟨k2, v2⟩ := p
      by_cases h2 : k2 = k
      · simp [tallyStep, dictInsert, dictLookup, h2]
        omega
      · have hstep : tallyStep ((k2, v2) :: rest) k = (k2, v2) :: tallyStep rest k := by
          simp [tallyStep, dictInsert, dictLookup, h2]
        rw [hstep]
        simp only [List.map_cons, List.sum_cons]
        omega

theorem tallyStep_lookup_self (m : List (String × Nat)) (k : String) :
    (dictLookup (tallyStep m k) k).getD 0 = (dictLookup m k).getD 0 + 1 := by
  unfold tallyStep
  rw [dictLookup_insert_self]
  rfl

theorem tallyStep_lookup_ne (m : List (String × Nat)) (k k2 : String) (h : k ≠ k2) :
    dictLookup (tallyStep m k) k2 = dictLookup m k2 :=
  dictLookup_insert_ne m k k2 _ h

theorem c10_fold_keys (items : List Item) (m : List (String × Nat))
    (h : m.map Prod.fst = ["1", "2", "3", "4+"]) :
    ((items.foldl (fun tally it => tallyStep tally (bucketKey it.score)) m).map Prod.fst)
      = ["1", "2", "3", "4+"] := by
  induction items generalizing m with
  | nil => exact h
  | cons it rest ih =>
      simp only [List.foldl_cons]
      exact ih _ (by rw [tallyStep_keys m _ (by rw [h]; exact bucketKey_mem it.score)]; exact h)

theorem c10_fold_lookup (items : List Item) (m : List (String × Nat)) (k : String)
    (h : m.map Prod.fst = ["1", "2", "3", "4+"]) :
    (dictLookup (items.foldl (fun tally it => tallyStep tally (bucketKey it.score)) m) k).getD 0
      = (dictLookup m k).getD 0 + items.countP (fun it => bucketKey it.score == k) := by
  induction items generalizing m with
  | nil => simp
  | cons it rest ih =>
      simp only [List.foldl_cons, List.countP_cons]
      have hkeys : (tallyStep m (bucketKey it.score)).map Prod.fst = ["1", "2", "3", "4+"] := by
        rw [tallyStep_keys m _ (by rw [h]; exact bucketKey_mem it.score)]
        exact h
      rw [ih (tallyStep m (bucketKey it.score)) hkeys]
      by_cases hk : bucketKey it.score = k
      · rw [hk, tallyStep_lookup_self]
        simp only [hk, beq_self_eq_true, if_pos]
        omega
      · rw [tallyStep_lookup_ne m _ k hk]
        have : (bucketKey it.score == k) = false := by
          rw [beq_eq_false_iff_ne]
          exact hk
        rw [this]
        simp

theorem c10_fold_sum (items : List Item) (m : List (String × Nat)) :
    (((items.foldl (fun tally it => tallyStep tally (bucketKey it.score)) m).map Prod.snd).sum)
      = (m.map Prod.snd).sum + items.length := by
  induction items generalizing m with
  | nil => simp
  | cons it rest ih =>
      simp only [List.foldl_cons, List.length_cons]
      rw [ih (tallyStep m (bucketKey it.score)), tallyStep_sum]
      omega

/-- C10: the manifest's `count_by_score` has exactly the keys `"1"`, `"2"`,
`"3"`, `"4+"`; each item lands in exactly one bucket (its score clamped to
1..3, or `"4+"` from 4 up), so each bucket holds the count of items mapped
to it and the bucket counts sum to the number of items (`count_total`). -/
theorem c10_manifest_buckets (items : List Item) :
    ((count_by_score items).map Prod.fst = ["1", "2", "3", "4+"])
    ∧ (∀ k ∈ (["1", "2", "3", "4+"] : List String),
        (dictLookup (count_by_score items) k).getD 0
          = items.countP (fun it => bucketKey it.score == k))
    ∧ ((count_by_score items).map Prod.snd).sum = items.length := by
  refine ⟨c10_fold_keys items _ (by decide), ?_, ?_⟩
  · intro k hk
    unfold count_by_score
    rw [c10_fold_lookup items _ k (by decide)]
    have hzero : (dictLookup [("1", 0), ("2", 0), ("3", 0), ("4+", 0)] k).getD 0 = 0 := by
      fin_cases hk <;> decide
    omega
  · unfold count_by_score
    rw [c10_fold_sum]
    simp

theorem c10_manifest_buckets_witness :
    (dictLookup (count_by_score
        [Item.mk "2026-01-01" 5 "t" "https://a.com/1" "a.com" none (-1),
         Item.mk "2026-01-02" 2 "u" "https://a.com/2" "a.com" none (-1)]) "4+").getD 0 = 1 := by
  have h := (c10_manifest_buckets
      [Item.mk "2026-01-01" 5 "t" "https://a.com/1" "a.com" none (-1),
       Item.mk "2026-01-02" 2 "u" "https://a.com/2" "a.com" none (-1)]).2.1 "4+" (by decide)
  rw [h]
  decide

theorem overlay_untouched (items : List Item) (m : List (String × NewsRecord)) (k : String)
    (h : ∀ it ∈ items, it.link ≠ k) :
    dictLookup (items.foldl storeStep m) k = dictLookup m k := by
  induction items generalizing m with
  | nil => rfl
  | cons it rest ih =>
      simp only [List.foldl_cons]
      rw [ih (storeStep m it) (fun x hx => h x (List.mem_cons_of_mem _ hx))]
      exact dictLookup_insert_ne m it.link k (itemToRecord it) (h it (List.mem_cons_self _ _))

theorem overlay_wins (items : List Item) (m : List (String × NewsRecord)) (k : String)
    (h : ∃ it ∈ items, it.link = k) :
    ∃ it ∈ items, it.link = k
      ∧ dictLookup (items.foldl storeStep m) k = some (itemToRecord it) := by
  induction items generalizing m with
  | nil =>
      obtain ⟨x, hx, -⟩ := h
      exact absurd hx (List.not_mem_nil x)
  | cons it rest ih =>
      by_cases hr : ∃ x ∈ rest, x.link = k
      · obtain ⟨x, hx, hxk, hlk⟩ := ih (storeStep m it) hr
        refine ⟨x, List.mem_cons_of_mem _ hx, hxk, ?_⟩
        simpa using hlk
      · obtain ⟨x, hx, hxk⟩ := h
        have hx1 : x = it := by
          rcases List.mem_cons.mp hx with h1 | h1
          · exact h1
          · exact absurd ⟨x, h1, hxk⟩ hr
        subst hx1
        push_neg at hr
        refine ⟨x, List.mem_cons_self _ _, hxk, ?_⟩
        simp only [List.foldl_cons]
        rw [overlay_untouched rest (storeStep m x) k hr, ← hxk]
        exact dictLookup_insert_self m x.link (itemToRecord x)

theorem index_fold_fresh (old : List NewsRecord) (m : List (String × NewsRecord))
    (hfresh : ∀ r ∈ old, dictLookup m r.link = none)
    (hnd : (old.map (fun r => r.link)).Nodup) :
    old.foldl indexStep m = m ++ old.map (fun r => (r.link, r)) := by
  induction old generalizing m with
  | nil => simp
  | cons r rest ih =>
      simp only [List.map_cons, List.nodup_cons] at hnd
      have hm : dictLookup m r.link = none := hfresh r (List.mem_cons_self _ _)
      have hstep : indexStep m r = m ++ [(r.link, r)] := by
        unfold indexStep
        exact dictInsert_of_not_mem_keys m r.link r ((dictLookup_eq_none_iff m r.link).mp hm)
      have hfresh2 : ∀ x ∈ rest, dictLookup (m ++ [(r.link, r)]) x.link = none := by
        intro x hx
        rw [dictLookup_append]
        rw [hfresh x (List.mem_cons_of_mem _ hx)]
        have : r.link ≠ x.link := by
          intro he
          exact hnd.1 (he ▸ List.mem_map.mpr ⟨x, hx, rfl⟩)
        simp [dictLookup, this]
      simp only [List.foldl_cons, hstep]
      rw [ih (m ++ [(r.link, r)]) hfresh2 hnd.2]
      simp

/-- C4: the historical merge indexes the store by link and overlays the new
items by link, so the surviving record for any link carried by a new item
is always that new item's record; and merging a (deduplicated,
date-sorted) store with an empty new-items list yields exactly the store
filtered by the retention window, with no record otherwise changed. -/
theorem c4_merge (old : List NewsRecord) (items : List Item) (today : Nat) (k : String) :
    ((∃ it ∈ items, it.link = k) →
      ∃ it ∈ items, it.link = k
        ∧ dictLookup (overlayNew old items) k = some (itemToRecord it))
    ∧ ((old.map (fun r => r.link)).Nodup →
        old.Pairwise (fun a b => strLeB b.date a.date = true) →
        mergeStore old [] today = old.filter (recent_only today)) := by
  constructor
  · intro h
    exact overlay_wins items (indexByLink old) k h
  · intro hnd hsorted
    unfold mergeStore
    have hov : overlayNew old ([] : List Item) = indexByLink old := rfl
    rw [hov]
    unfold indexByLink
    rw [index_fold_fresh old [] (fun r _ => rfl) hnd]
    simp only [List.nil_append, List.map_map]
    have hvals : List.map (Prod.snd ∘ fun r : NewsRecord => (r.link, r)) old = old :=
      (List.map_congr_left (fun a _ => rfl)).trans (List.map_id _)
    rw [hvals]
    exact pyStableSort_of_pairwise _ _ (hsorted.filter _)

theorem c4_merge_witness :
    dictLookup (overlayNew
        [NewsRecord.mk "2026-01-05" 3 "told" "https://a.com/1" "a.com" [] (-1),
         NewsRecord.mk "2020-01-01" 1 "stale" "https://a.com/2" "a.com" [] (-1)]
        [Item.mk "2026-02-01" 2 "tnew" "https://a.com/1" "a.com" none (-1)])
        "https://a.com/1"
      = some (itemToRecord (Item.mk "2026-02-01" 2 "tnew" "https://a.com/1" "a.com" none (-1)))
    ∧ mergeStore
        [NewsRecord.mk "2026-01-05" 3 "told" "https://a.com/1" "a.com" [] (-1),
         NewsRecord.mk "2020-01-01" 1 "stale" "https://a.com/2" "a.com" [] (-1)]
        [] (toOrdinal 2026 10 12)
      = [NewsRecord.mk "2026-01-05" 3 "told" "https://a.com/1" "a.com" [] (-1)] := by
  constructor
  · obtain ⟨it, hmem, -, hlk⟩ := (c4_merge
        [NewsRecord.mk "2026-01-05" 3 "told" "https://a.com/1" "a.com" [] (-1),
         NewsRecord.mk "2020-01-01" 1 "stale" "https://a.com/2" "a.com" [] (-1)]
        [Item.mk "2026-02-01" 2 "tnew" "https://a.com/1" "a.com" none (-1)]
        (toOrdinal 2026 10 12) "https://a.com/1").1
      ⟨Item.mk "2026-02-01" 2 "tnew" "https://a.com/1" "a.com" none (-1), by decide, rfl⟩
    have hit : it = Item.mk "2026-02-01" 2 "tnew" "https://a.com/1" "a.com" none (-1) :=
      List.mem_singleton.mp hmem
    rw [hit] at hlk
    exact hlk
  · have h := (c4_merge
        [NewsRecord.mk "2026-01-05" 3 "told" "https://a.com/1" "a.com" [] (-1),
         NewsRecord.mk "2020-01-01" 1 "stale" "https://a.com/2" "a.com" [] (-1)]
        ([] : List Item) (toOrdinal 2026 10 12) "x").2 (by decide) (by decide)
    rw [h]
    decide

theorem enrich_proj (kws : String → List String) (cl : Nat → Int) (i : Nat) (l : List Item) :
    (enrichAll kws cl i l).map itemProj = l.map itemProj := by
  induction l generalizing i with
  | nil => rfl
  | cons it rest ih =>
      simp only [enrichAll, List.map_cons]
      have hhead : itemProj { it with keywords := some (kws it.title), cluster_id := cl i }
          = itemProj it := rfl
      rw [hhead, ih (i + 1)]

/-- C6: with enrichment unavailable the pipeline yields, for the same
filtered and scored input, the same collection of items as a run with
enrichment available — agreeing on date, score, title, link and host —
and every persisted record of the enrichment-free run carries
`keywords = []` and `cluster_id = -1`. -/
theorem c6_enrichment_degradation (kws : String → List String) (cl : Nat → Int) (cfg : Config)
    (sinceDays : Int) (today : Nat) (entries : List RawEntry) :
    List.Perm
      ((finalizeAbsent (run_items cfg sinceDays today entries)).map itemProj)
      ((finalizePresent kws cl (run_items cfg sinceDays today entries)).map itemProj)
    ∧ ∀ it ∈ finalizeAbsent (run_items cfg sinceDays today entries),
        (itemToRecord it).keywords = [] ∧ (itemToRecord it).cluster_id = -1 := by
  constructor
  · have h1 := (pyStableSort_perm reportLe (run_items cfg sinceDays today entries)).map itemProj
    have h2 := (pyStableSort_perm reportLe
        (enrichAll kws cl 0 (run_items cfg sinceDays today entries))).map itemProj
    rw [enrich_proj kws cl 0 (run_items cfg sinceDays today entries)] at h2
    exact h1.trans h2.symm
  · intro it hit
    have hmem : it ∈ run_items cfg sinceDays today entries :=
      (pyStableSort_perm reportLe _).mem_iff.mp hit
    have hmem2 := mem_unique_by_link _ it hmem
    obtain ⟨e, -, hpe⟩ := List.mem_filterMap.mp hmem2
    obtain ⟨-, -, -, -, hkw, hcl, -, -, -⟩ := processEntry_spec cfg sinceDays today e it hpe
    exact ⟨by simp [itemToRecord, hkw], by simp [itemToRecord, hcl]⟩

theorem c6_enrichment_degradation_witness :
    (itemToRecord (Item.mk "2026-10-10" 7 "ThinkPad X1 2560x1600 matte 400 nits"
        "https://news.lenovo.com/x1" "news.lenovo.com" none (-1))).keywords = []
    ∧ (itemToRecord (Item.mk "2026-10-10" 7 "ThinkPad X1 2560x1600 matte 400 nits"
        "https://news.lenovo.com/x1" "news.lenovo.com" none (-1))).cluster_id = -1 :=
  (c6_enrichment_degradation (fun _ => []) (fun _ => 0) ⟨[], [], [], [], false, 14⟩ 14
      (toOrdinal 2026 10 12)
      [⟨"ThinkPad X1 2560x1600 matte 400 nits", "https://news.lenovo.com/x1", "", "2026-10-10"⟩]).2
    (Item.mk "2026-10-10" 7 "ThinkPad X1 2560x1600 matte 400 nits"
      "https://news.lenovo.com/x1" "news.lenovo.com" none (-1))
    (by decide)

end Tracker
